import Mathlib

/-!
Shallow embedding of the slide-extraction pipeline in `video2text.py`
(the functions `extract_frames`, `get_unique_slides` and
`extract_text_from_slides`).

Modelling choices:

* A decoded video is the finite list of frames that `cv2.VideoCapture.read`
  yields before it reports end of stream (`extract_frames` loops on
  `cap.read()` until `ret` is false).
* `imagehash.phash` is an opaque deterministic capability
  `phash : P → Fingerprint w` (the library value is a 64-bit perceptual
  hash; the width is kept as a parameter).  Subtraction of two `ImageHash`
  values in Python returns the number of differing bit positions, modelled
  by Mathlib's `hammingDist`; the Python code wraps the difference in
  `abs`, which is kept in the embedding (`Int.natAbs` semantics via `|·|`
  on `ℤ`).
* `pytesseract.image_to_string` may raise; it is modelled as a capability
  returning `Except E (List Char)`.  Python's `str.strip()` is modelled by
  `pyStrip` over the ASCII whitespace characters.  The first component of
  each returned record is the slide whose image was written to the
  temporary PNG file named there.
* `frame_id % frame_interval` uses Python's modulo.  For the only use the
  code makes of it (comparison with 0), Python's `%` and `Int.emod` agree:
  both vanish exactly on multiples of the divisor, for positive and for
  negative divisors.  `frame_id % 0` raises `ZeroDivisionError`, modelled
  by the `crashed` result, which records how many frames had been decoded
  when the exception was raised.
-/

/-- Fingerprint of a frame: the bit vector produced by `imagehash.phash`
(64 bits for the library default; the width `w` is a parameter). -/
abbrev Fingerprint (w : ℕ) : Type := Fin w → Bool

/-- Loop body of `get_unique_slides` (`video2text.py`, lines 51-58),
threading the `hashes` accumulator explicitly.  A frame is kept when
`all(abs(hash_val - h) > hash_difference_threshold for h in hashes)`. -/
def dedupAux {P : Type} {w : ℕ} (phash : P → Fingerprint w) (threshold : ℤ) :
    List (Fingerprint w) → List P → List P
  | _, [] => []
  | hashes, frame :: rest =>
    if hashes.all fun h => decide (threshold < |(hammingDist (phash frame) h : ℤ)|) then
      frame :: dedupAux phash threshold (hashes ++ [phash frame]) rest
    else
      dedupAux phash threshold hashes rest

/-- The function `get_unique_slides(frames, hash_difference_threshold=5)` of
`video2text.py` (lines 47-60), parametrised by the `imagehash.phash`
capability.  The Python default threshold is 5; the embedding passes the
threshold explicitly. -/
def get_unique_slides {P : Type} {w : ℕ} (phash : P → Fingerprint w)
    (frames : List P) (hash_difference_threshold : ℤ) : List P :=
  dedupAux phash hash_difference_threshold [] frames

/-- Result of `extract_frames`: either the sampled frame list, or a
`ZeroDivisionError` crash recording how many frames had been decoded from
the source when `frame_id % 0` was evaluated. -/
inductive ExtractResult (P : Type) where
  | crashed (framesDecoded : ℕ)
  | ok (frames : List P)
deriving DecidableEq

/-- Loop body of `extract_frames` (`video2text.py`, lines 36-42) over the
remaining decodable frames, carrying the running `frame_id`.  Each
iteration decodes one frame; with `frame_interval = 0` the modulo raises
`ZeroDivisionError` at the first decoded frame. -/
def extractFramesAux {P : Type} (frame_interval : ℤ) : ℤ → List P → ExtractResult P
  | _, [] => .ok []
  | frame_id, frame :: rest =>
    if frame_interval = 0 then .crashed 1
    else
      match extractFramesAux frame_interval (frame_id + 1) rest with
      | .crashed n => .crashed (n + 1)
      | .ok fs => .ok (if frame_id % frame_interval = 0 then frame :: fs else fs)

/-- The function `extract_frames(video_path, frame_interval=30)` of
`video2text.py` (lines 31-44).  `video_path` stands for the finite list of
frames its `cv2.VideoCapture` decodes; the Python default interval is 30,
passed explicitly here. -/
def extract_frames {P : Type} (video_path : List P) (frame_interval : ℤ) :
    ExtractResult P :=
  extractFramesAux frame_interval 0 video_path

/-- Pure description of the sampling loop of `extract_frames` for a
non-zero interval: keep the frames whose running `frame_id` is a multiple
of the interval. -/
def sampleList {P : Type} (frame_interval : ℤ) : ℤ → List P → List P
  | _, [] => []
  | frame_id, frame :: rest =>
    if frame_id % frame_interval = 0 then
      frame :: sampleList frame_interval (frame_id + 1) rest
    else
      sampleList frame_interval (frame_id + 1) rest

/-- Every `n`-th element of a list, starting with the first. -/
def everyNth {P : Type} (n : ℕ) : List P → List P
  | [] => []
  | f :: rest => f :: everyNth n (rest.drop (n - 1))
termination_by l => l.length
decreasing_by
  simp only [List.length_drop, List.length_cons]
  omega

/-- Whitespace characters removed by Python's `str.strip()` (ASCII range). -/
def isPySpace (c : Char) : Bool :=
  c = ' ' || c = '\t' || c = '\n' || c = '\r' || c = '\x0b' || c = '\x0c'

/-- Python's `str.strip()` on a text modelled as a character list. -/
def pyStrip (s : List Char) : List Char :=
  ((s.dropWhile isPySpace).reverse.dropWhile isPySpace).reverse

/-- The function `extract_text_from_slides(slides)` of `video2text.py`
(lines 63-76), parametrised by the `pytesseract.image_to_string`
capability.  The loop has no exception handler: a raise from the
capability propagates and aborts the whole call.  On success each record
pairs the slide (whose image is saved to the temporary file the code names
in the first tuple component) with `text.strip()`. -/
def extract_text_from_slides {P E : Type} (image_to_string : P → Except E (List Char)) :
    List P → Except E (List (P × List Char))
  | [] => .ok []
  | slide :: rest =>
    match image_to_string slide with
    | .error e => .error e
    | .ok text =>
      match extract_text_from_slides image_to_string rest with
      | .error e => .error e
      | .ok tail => .ok ((slide, pyStrip text) :: tail)

/-- Concrete 7-bit fingerprints used to compare the two dedup thresholds:
bits 4,5,6 set. -/
def fpA : Fingerprint 7 := fun i => decide (4 ≤ i.val)

/-- Concrete 7-bit fingerprint: all bits clear. -/
def fpB : Fingerprint 7 := fun _ => false

/-- Concrete 7-bit fingerprint: bits 0,1 set. -/
def fpC : Fingerprint 7 := fun i => decide (i.val < 2)

/-- Concrete 7-bit fingerprint: bits 2,3 set. -/
def fpD : Fingerprint 7 := fun i => decide (2 ≤ i.val ∧ i.val < 4)

/-- Frame sequence (frames carrying their own fingerprints) on which a
larger dedup threshold keeps more slides than a smaller one. -/
def thresholdFrames : List (Fingerprint 7) := [fpA, fpB, fpC, fpD]

/-- Extraction capability that raises on slide 1 and succeeds elsewhere. -/
def failingExtractor : ℕ → Except Unit (List Char) :=
  fun n => if n = 1 then .error () else .ok ['a']

/-- Extraction capability returning a text with surrounding blanks. -/
def paddedExtractor : ℕ → Except Unit (List Char) :=
  fun _ => .ok [' ', 'a', ' ']

/-- Hash capability for the five-frame scenario: pixel value 0 hashes to
the all-zero fingerprint, anything else to the all-one fingerprint. -/
def scenarioHash : ℕ → Fingerprint 2 :=
  fun n => if n = 0 then (fun _ => false) else (fun _ => true)

/-- Constant hash capability (all frames collide). -/
def constHash : ℕ × ℕ → Fingerprint 2 :=
  fun _ => (fun _ => false)

/-- The Boolean acceptance test of `get_unique_slides` as a proposition:
the candidate hash is farther than the threshold from every stored hash. -/
theorem all_dist_iff {w : ℕ} (hs : List (Fingerprint w)) (hv : Fingerprint w) (t : ℤ) :
    (hs.all fun h => decide (t < |(hammingDist hv h : ℤ)|)) = true ↔
      ∀ h ∈ hs, t < (hammingDist hv h : ℤ) := by
  simp [List.all_eq_true, Int.abs_natCast]

/-- Processing a concatenation: the second part starts from the hash store
extended by the fingerprints of the slides accepted in the first part. -/
theorem dedupAux_append {P : Type} {w : ℕ} (phash : P → Fingerprint w) (t : ℤ) :
    ∀ (xs ys : List P) (hs : List (Fingerprint w)),
      dedupAux phash t hs (xs ++ ys) =
        dedupAux phash t hs xs ++
          dedupAux phash t (hs ++ (dedupAux phash t hs xs).map phash) ys
  | [], ys, hs => by simp [dedupAux]
  | f :: xs, ys, hs => by
    rw [List.cons_append]
    by_cases hc : (hs.all fun h => decide (t < |(hammingDist (phash f) h : ℤ)|)) = true
    · rw [dedupAux, if_pos hc, dedupAux, if_pos hc,
        dedupAux_append phash t xs ys (hs ++ [phash f])]
      simp [List.append_assoc]
    · rw [dedupAux, if_neg hc, dedupAux, if_neg hc, dedupAux_append phash t xs ys hs]

/-- The accepted slides form a subsequence of the incoming frames. -/
theorem dedupAux_sublist {P : Type} {w : ℕ} (phash : P → Fingerprint w) (t : ℤ) :
    ∀ (xs : List P) (hs : List (Fingerprint w)), (dedupAux phash t hs xs).Sublist xs
  | [], _ => by simp [dedupAux]
  | f :: xs, hs => by
    rw [dedupAux]
    split
    · exact (dedupAux_sublist phash t xs (hs ++ [phash f])).cons₂ f
    · exact (dedupAux_sublist phash t xs hs).cons f

/-- Every accepted slide is farther than the threshold from every hash that
was already stored when processing started. -/
theorem dedupAux_sep {P : Type} {w : ℕ} (phash : P → Fingerprint w) (t : ℤ) :
    ∀ (xs : List P) (hs : List (Fingerprint w)) (a : P),
      a ∈ dedupAux phash t hs xs → ∀ g ∈ hs, t < (hammingDist (phash a) g : ℤ)
  | [], hs, a => by simp [dedupAux]
  | f :: xs, hs, a => by
    rw [dedupAux]
    split
    · rename_i hc
      intro ha g hg
      rcases List.mem_cons.1 ha with rfl | ha
      · exact (all_dist_iff hs (phash a) t).1 hc g hg
      · exact dedupAux_sep phash t xs (hs ++ [phash f]) a ha g (List.mem_append_left _ hg)
    · intro ha g hg
      exact dedupAux_sep phash t xs hs a ha g hg

/-- Pairwise separation of the accepted slides. -/
theorem dedupAux_pairwise {P : Type} {w : ℕ} (phash : P → Fingerprint w) (t : ℤ) :
    ∀ (xs : List P) (hs : List (Fingerprint w)),
      (dedupAux phash t hs xs).Pairwise
        fun a b => t < (hammingDist (phash a) (phash b) : ℤ)
  | [], hs => by simp [dedupAux]
  | f :: xs, hs => by
    rw [dedupAux]
    split
    · refine List.Pairwise.cons ?_ (dedupAux_pairwise phash t xs (hs ++ [phash f]))
      intro b hb
      have := dedupAux_sep phash t xs (hs ++ [phash f]) b hb (phash f)
        (List.mem_append_right _ (List.mem_singleton_self _))
      rwa [hammingDist_comm] at this
    · exact dedupAux_pairwise phash t xs hs

/-- Every incoming frame ends up within the threshold of a stored hash or
of the fingerprint of an accepted slide (for a non-negative threshold the
accepted slide may be the frame itself). -/
theorem dedupAux_cover {P : Type} {w : ℕ} (phash : P → Fingerprint w) (t : ℕ) :
    ∀ (xs : List P) (hs : List (Fingerprint w)) (f : P), f ∈ xs →
      ∃ g ∈ hs ++ (dedupAux phash (t : ℤ) hs xs).map phash,
        hammingDist (phash f) g ≤ t
  | [], hs, f => by simp
  | x :: xs, hs, f => by
    intro hf
    rw [dedupAux]
    split
    · rename_i hc
      rcases List.mem_cons.1 hf with rfl | hf
      · exact ⟨phash f, by simp, by simp [hammingDist_self]⟩
      · obtain ⟨g, hg, hd⟩ := dedupAux_cover phash t xs (hs ++ [phash x]) f hf
        refine ⟨g, ?_, hd⟩
        simp only [List.mem_append, List.mem_singleton] at hg
        rcases hg with (hg | rfl) | hg
        · exact List.mem_append_left _ hg
        · exact List.mem_append_right _
            (List.mem_map_of_mem phash (List.mem_cons_self x _))
        · rw [List.mem_map] at hg
          obtain ⟨b, hb, rfl⟩ := hg
          exact List.mem_append_right _
            (List.mem_map_of_mem phash (List.mem_cons_of_mem x hb))
    · rename_i hc
      rcases List.mem_cons.1 hf with rfl | hf
      · rw [all_dist_iff] at hc
        push_neg at hc
        obtain ⟨g, hg, hd⟩ := hc
        refine ⟨g, List.mem_append_left _ hg, ?_⟩
        exact_mod_cast hd
      · obtain ⟨g, hg, hd⟩ := dedupAux_cover phash t xs hs f hf
        exact ⟨g, hg, hd⟩

/-- With a negative threshold every frame passes the acceptance test. -/
theorem dedupAux_neg {P : Type} {w : ℕ} (phash : P → Fingerprint w) (t : ℤ) (ht : t < 0) :
    ∀ (xs : List P) (hs : List (Fingerprint w)), dedupAux phash t hs xs = xs
  | [], hs => rfl
  | f :: xs, hs => by
    rw [dedupAux, if_pos, dedupAux_neg phash t ht xs (hs ++ [phash f])]
    rw [all_dist_iff]
    intro h _
    exact lt_of_lt_of_le ht (Int.natCast_nonneg _)

/-- C1: `get_unique_slides` accepts an incoming frame if and only if the
Hamming distance between its fingerprint and every previously accepted
fingerprint is strictly greater than the non-negative threshold; and the
first frame of a non-empty sequence is always accepted. -/
theorem c1_accept_iff {P : Type} {w : ℕ} (phash : P → Fingerprint w) (t : ℕ)
    (ys xs : List P) (f : P) :
    (get_unique_slides phash (ys ++ [f]) (t : ℤ) =
      if ∀ g ∈ get_unique_slides phash ys (t : ℤ),
          (t : ℤ) < (hammingDist (phash f) (phash g) : ℤ)
        then get_unique_slides phash ys (t : ℤ) ++ [f]
        else get_unique_slides phash ys (t : ℤ)) ∧
    (get_unique_slides phash (f :: xs) (t : ℤ)).head? = some f := by
  have key : ∀ hs : List (Fingerprint w),
      dedupAux phash (t : ℤ) hs [f] =
        if hs.all fun h => decide ((t : ℤ) < |(hammingDist (phash f) h : ℤ)|)
          then [f] else [] := by
    intro hs
    rw [dedupAux]
    split <;> simp [dedupAux]
  constructor
  · simp only [get_unique_slides]
    rw [dedupAux_append phash (t : ℤ) ys [f] [], List.nil_append, key]
    by_cases hc : ∀ g ∈ dedupAux phash (t : ℤ) [] ys,
        (t : ℤ) < (hammingDist (phash f) (phash g) : ℤ)
    · have hb : (((dedupAux phash (t : ℤ) [] ys).map phash).all
          fun h => decide ((t : ℤ) < |(hammingDist (phash f) h : ℤ)|)) = true := by
        rw [all_dist_iff]
        intro h hh
        rw [List.mem_map] at hh
        obtain ⟨g, hg, rfl⟩ := hh
        exact hc g hg
      rw [if_pos hb, if_pos hc]
    · have hb : ¬ ((((dedupAux phash (t : ℤ) [] ys).map phash).all
          fun h => decide ((t : ℤ) < |(hammingDist (phash f) h : ℤ)|)) = true) := by
        rw [all_dist_iff]
        intro hforall
        exact hc fun g hg => hforall (phash g) (List.mem_map_of_mem phash hg)
      rw [if_neg hb, if_neg hc, List.append_nil]
  · simp [get_unique_slides, dedupAux]

/-- C3: the output of `get_unique_slides` is a subsequence of the input in
original order; when the frames carry strictly increasing original
indices, the retained indices are strictly increasing, so there is no
reordering, no inserted frame and no duplicated position. -/
theorem c3_subsequence {P : Type} {w : ℕ} (phash : P → Fingerprint w) (t : ℤ)
    (xs : List P) (idx : P → ℕ)
    (hinc : xs.Pairwise fun a b => idx a < idx b) :
    (get_unique_slides phash xs t).Sublist xs ∧
      (get_unique_slides phash xs t).Pairwise fun a b => idx a < idx b :=
  ⟨dedupAux_sublist phash t xs [], hinc.sublist (dedupAux_sublist phash t xs [])⟩

/-- Witness for C3 on a concrete three-frame input with identity index. -/
theorem c3_subsequence_witness :
    (get_unique_slides (fun _ : ℕ => fpB) [10, 11, 12] 0).Sublist [10, 11, 12] ∧
      (get_unique_slides (fun _ : ℕ => fpB) [10, 11, 12] 0).Pairwise
        fun a b => id a < id b :=
  c3_subsequence (fun _ : ℕ => fpB) 0 [10, 11, 12] id (by decide)

/-- C9: any two slides at distinct positions of the output of
`get_unique_slides` have fingerprints at Hamming distance strictly greater
than the threshold; since Hamming distance is commutative the guarantee
holds for every pair of retained slides, not only adjacent ones. -/
theorem c9_pairwise_separation {P : Type} {w : ℕ} (phash : P → Fingerprint w)
    (t : ℕ) (xs : List P) :
    (get_unique_slides phash xs (t : ℤ)).Pairwise
      fun a b => t < hammingDist (phash a) (phash b) :=
  (dedupAux_pairwise phash (t : ℤ) xs []).imp fun hab => by exact_mod_cast hab

/-- C10: with a negative threshold `get_unique_slides` performs no
validation and accepts every frame: the output equals the full input, even
when fingerprints repeat exactly. -/
theorem c10_negative_threshold {P : Type} {w : ℕ} (phash : P → Fingerprint w)
    (t : ℤ) (ht : t < 0) (xs : List P) :
    get_unique_slides phash xs t = xs :=
  dedupAux_neg phash t ht xs []

/-- Witness for C10: three bit-identical frames all survive at threshold -1. -/
theorem c10_negative_threshold_witness :
    get_unique_slides (fun _ : ℕ => fpB) [3, 3, 3] (-1) = [3, 3, 3] :=
  c10_negative_threshold (fun _ : ℕ => fpB) (-1) (by decide) [3, 3, 3]

/-- C2 fails on the code: on `thresholdFrames` the threshold 3 run keeps
three slides while the threshold 2 run keeps only two, so raising the
threshold from 2 to 3 increases the accepted-slide count. -/
theorem c2_counterexample :
    ¬ ((get_unique_slides (id : Fingerprint 7 → Fingerprint 7) thresholdFrames 3).length ≤
       (get_unique_slides (id : Fingerprint 7 → Fingerprint 7) thresholdFrames 2).length) := by
  decide

/-- C2 (amended): raising the threshold never increases the accepted-slide
count provided the new threshold is at least twice the old one; the greedy
selection guarantees pairwise separation above the threshold and coverage
within it, and the triangle inequality for Hamming distance turns those
into an injection between the outputs. -/
theorem c2_amended {P : Type} {w : ℕ} [DecidableEq P] (phash : P → Fingerprint w)
    (xs : List P) (t1 t2 : ℕ) (h : 2 * t1 ≤ t2) :
    (get_unique_slides phash xs (t2 : ℤ)).length ≤
      (get_unique_slides phash xs (t1 : ℤ)).length := by
  classical
  set S1 := get_unique_slides phash xs (t1 : ℤ) with hS1
  set S2 := get_unique_slides phash xs (t2 : ℤ) with hS2
  have hpw : S2.Pairwise fun a b => t2 < hammingDist (phash a) (phash b) :=
    (dedupAux_pairwise phash (t2 : ℤ) xs []).imp fun hab => by exact_mod_cast hab
  have hsym : Symmetric fun a b : P => t2 < hammingDist (phash a) (phash b) := by
    intro a b hab
    rwa [hammingDist_comm]
  have hfar : ∀ a ∈ S2, ∀ b ∈ S2, a ≠ b → t2 < hammingDist (phash a) (phash b) :=
    fun a ha b hb hne => hpw.forall hsym ha hb hne
  have hnodup : S2.Nodup := by
    refine hpw.imp ?_
    intro a b hab hEq
    subst hEq
    simp [hammingDist_self] at hab
  have hsub : S2.Sublist xs := dedupAux_sublist phash (t2 : ℤ) xs []
  have hcov : ∀ f ∈ xs, ∃ g ∈ S1, hammingDist (phash f) (phash g) ≤ t1 := by
    intro f hf
    obtain ⟨g, hg, hd⟩ := dedupAux_cover phash t1 xs [] f hf
    rw [List.nil_append, List.mem_map] at hg
    obtain ⟨b, hb, rfl⟩ := hg
    exact ⟨b, hb, hd⟩
  have hpick : ∀ a ∈ S2, ∃ g ∈ S1, hammingDist (phash a) (phash g) ≤ t1 :=
    fun a ha => hcov a (hsub.subset ha)
  have hcard : S2.toFinset.card ≤ S1.toFinset.card := by
    refine Finset.card_le_card_of_injOn
      (fun a => if hsel : ∃ g ∈ S1, hammingDist (phash a) (phash g) ≤ t1
        then hsel.choose else a) ?_ ?_
    · intro a ha
      rw [List.mem_toFinset] at ha
      have hx := hpick a ha
      simp only [dif_pos hx, List.mem_toFinset]
      exact hx.choose_spec.1
    · intro a ha b hb hab
      rw [Finset.mem_coe, List.mem_toFinset] at ha hb
      by_contra hne
      have h2 := hfar a ha b hb hne
      have hxa := hpick a ha
      have hxb := hpick b hb
      simp only [dif_pos hxa, dif_pos hxb] at hab
      have hga := hxa.choose_spec.2
      have hgb := hxb.choose_spec.2
      rw [hab] at hga
      have htri := hammingDist_triangle (phash a) (phash hxb.choose) (phash b)
      have hc2 : hammingDist (phash hxb.choose) (phash b) ≤ t1 := by
        rw [hammingDist_comm]
        exact hgb
      omega
  calc S2.length = S2.toFinset.card := (List.toFinset_card_of_nodup hnodup).symm
    _ ≤ S1.toFinset.card := hcard
    _ ≤ S1.length := List.toFinset_card_le S1

/-- Witness for the amended C2 at thresholds 0 and 1 on `thresholdFrames`. -/
theorem c2_amended_witness :
    (get_unique_slides (id : Fingerprint 7 → Fingerprint 7) thresholdFrames ((1 : ℕ) : ℤ)).length ≤
      (get_unique_slides (id : Fingerprint 7 → Fingerprint 7) thresholdFrames ((0 : ℕ) : ℤ)).length :=
  c2_amended id thresholdFrames 0 1 (by decide)

/-- C8 fails on the code as stated: the code gives no guarantee that two
pixel-distinct groups have fingerprints farther apart than the threshold;
with a hash capability on which the two groups collide, the five-frame
input keeps a single slide instead of the claimed two. -/
theorem c8_counterexample :
    get_unique_slides constHash [(0, 5), (1, 5), (2, 5), (3, 7), (4, 7)] 1 = [(0, 5)] ∧
      get_unique_slides constHash [(0, 5), (1, 5), (2, 5), (3, 7), (4, 7)] 1 ≠
        [(0, 5), (3, 7)] := by
  decide

/-- C8 (amended): provided the fingerprints of the two pixel-identical
groups are at Hamming distance strictly greater than the threshold 1, the
five-frame input keeps exactly the two slides at original indices 0 and 3. -/
theorem c8_amended {Q : Type} {w : ℕ} (phash : Q → Fingerprint w) (pa pd : Q)
    (h : 1 < hammingDist (phash pa) (phash pd)) :
    get_unique_slides (fun fr : ℕ × Q => phash fr.2)
      [(0, pa), (1, pa), (2, pa), (3, pd), (4, pd)] 1 = [(0, pa), (3, pd)] := by
  have hself : ∀ q : Q,
      (decide ((1 : ℤ) < |(hammingDist (phash q) (phash q) : ℤ)|)) = false := by
    intro q
    simp [hammingDist_self]
  have hda : (decide ((1 : ℤ) < |(hammingDist (phash pd) (phash pa) : ℤ)|)) = true := by
    rw [decide_eq_true_eq, Int.abs_natCast, hammingDist_comm]
    exact_mod_cast h
  have hgt : 1 < hammingDist (phash pd) (phash pa) := by
    rw [hammingDist_comm]
    exact h
  simp [get_unique_slides, dedupAux, hself, hda]
  intro hle
  omega

/-- Witness for the amended C8 with a hash capability separating the two
groups by distance 2. -/
theorem c8_amended_witness :
    get_unique_slides (fun fr : ℕ × ℕ => scenarioHash fr.2)
      [(0, 0), (1, 0), (2, 0), (3, 1), (4, 1)] 1 = [(0, 0), (3, 1)] :=
  c8_amended scenarioHash 0 1 (by decide)

/-- For a non-zero interval the sampling loop never raises: it returns the
frames whose running index is a multiple of the interval. -/
theorem extractFramesAux_eq_ok {P : Type} (n : ℤ) (hn : n ≠ 0) :
    ∀ (v : List P) (fid : ℤ),
      extractFramesAux n fid v = .ok (sampleList n fid v)
  | [], fid => rfl
  | f :: v, fid => by
    rw [extractFramesAux, if_neg hn, extractFramesAux_eq_ok n hn v (fid + 1),
      sampleList]

/-- The sampling loop only looks at the frame counter modulo the interval. -/
theorem sampleList_congr {P : Type} (n : ℤ) :
    ∀ (v : List P) (a b : ℤ), a % n = b % n →
      sampleList n a v = sampleList n b v
  | [], _, _, _ => rfl
  | f :: v, a, b, h => by
    have h1 : (a + 1) % n = (b + 1) % n := by
      rw [Int.add_emod, h, ← Int.add_emod]
    rw [sampleList, sampleList, sampleList_congr n v (a + 1) (b + 1) h1]
    by_cases hc : a % n = 0
    · rw [if_pos hc, if_pos (by rw [← h]; exact hc)]
    · rw [if_neg hc, if_neg (by rw [← h]; exact hc)]

/-- Counting from a positive offset `j` below the interval skips the next
`n - j` frames. -/
theorem sampleList_skip {P : Type} (n : ℕ) (hn : 0 < n) :
    ∀ (k j : ℕ), j + k = n → 0 < j →
      ∀ v : List P, sampleList (n : ℤ) (j : ℤ) v = sampleList (n : ℤ) 0 (v.drop k)
  | 0, j, hjk, hj => by
    intro v
    have hj' : j = n := by omega
    subst hj'
    rw [List.drop_zero]
    apply sampleList_congr
    simp [Int.emod_self, Int.zero_emod]
  | k + 1, j, hjk, hj => by
    intro v
    cases v with
    | nil => rfl
    | cons f r =>
      have hjn : (j : ℤ) % (n : ℤ) ≠ 0 := by
        rw [Int.emod_eq_of_lt (by exact_mod_cast Nat.zero_le j)
          (by exact_mod_cast (by omega : j < n))]
        exact_mod_cast (by omega : j ≠ 0)
      rw [sampleList, if_neg hjn, List.drop_succ_cons]
      have hcast : ((j : ℤ) + 1) = ((j + 1 : ℕ) : ℤ) := by push_cast; ring
      rw [hcast, sampleList_skip n hn k (j + 1) (by omega) (by omega) r]

/-- Starting from counter zero, the sampling loop yields every `n`-th
frame. -/
theorem sampleList_zero {P : Type} (n : ℕ) (hn : 0 < n) :
    ∀ v : List P, sampleList (n : ℤ) 0 v = everyNth n v
  | [] => by rw [sampleList, everyNth]
  | f :: r => by
    rw [sampleList, if_pos (by simp), everyNth]
    have h1 : ((0 : ℤ) + 1) = ((1 : ℕ) : ℤ) := by norm_num
    rw [h1, sampleList_skip n hn (n - 1) 1 (by omega) (by omega) r,
      sampleList_zero n hn (r.drop (n - 1))]
termination_by v => v.length
decreasing_by
  simp only [List.length_drop, List.length_cons]
  omega

/-- The `k`-th retained frame is the input frame at position `k * n`. -/
theorem everyNth_getElem {P : Type} (n : ℕ) (hn : 0 < n) :
    ∀ (v : List P) (k : ℕ), (everyNth n v)[k]? = v[k * n]?
  | [], k => by simp [everyNth]
  | f :: r, 0 => by simp [everyNth]
  | f :: r, k + 1 => by
    rw [everyNth, List.getElem?_cons_succ,
      everyNth_getElem n hn (r.drop (n - 1)) k, List.getElem?_drop]
    have h2 : (k + 1) * n = ((n - 1) + k * n) + 1 := by
      obtain ⟨m, rfl⟩ : ∃ m, n = m + 1 := ⟨n - 1, by omega⟩
      simp only [Nat.add_sub_cancel]
      ring
    rw [h2, List.getElem?_cons_succ]
termination_by v _ => v.length
decreasing_by
  simp only [List.length_drop, List.length_cons]
  omega

/-- With a positive interval `extract_frames` terminates normally and
yields exactly every `interval`-th decoded frame. -/
theorem extract_frames_pos {P : Type} (n : ℕ) (hn : 0 < n) (v : List P) :
    extract_frames v (n : ℤ) = .ok (everyNth n v) := by
  rw [extract_frames, extractFramesAux_eq_ok (n : ℤ) (Int.natCast_ne_zero.mpr hn.ne') v 0,
    sampleList_zero n hn v]

/-- C7: for every finite decodable source and positive interval, the k-th
yielded frame is the frame at decode position k * interval, in increasing
order; on a 100-frame source with interval 30 the sampler yields exactly
the frames at indices 0, 30, 60, 90 and terminates normally. -/
theorem c7_sampling {P : Type} (video : List P) (n : ℕ) (hn : 0 < n) :
    (∃ l, extract_frames video (n : ℤ) = .ok l ∧ ∀ k, l[k]? = video[k * n]?) ∧
      extract_frames (List.range 100) 30 = .ok [0, 30, 60, 90] := by
  refine ⟨⟨everyNth n video, extract_frames_pos n hn video,
    fun k => everyNth_getElem n hn video k⟩, ?_⟩
  decide

/-- Witness for C7, discharging the positivity hypothesis at interval 1. -/
theorem c7_sampling_witness :
    extract_frames (List.range 100) 30 = .ok [0, 30, 60, 90] :=
  (c7_sampling [(0 : ℕ)] 1 (by decide)).2

/-- C6 fails on the code: there is no interval validation; with interval 0
the run crashes in the modulo after one frame has already been decoded
(not zero), and a negative interval is not rejected at all. -/
theorem c6_counterexample :
    extract_frames [(0 : ℕ)] 0 = .crashed 1 ∧
      extract_frames [(0 : ℕ)] 0 ≠ .crashed 0 ∧
      extract_frames [(5 : ℕ), 6] (-3) = .ok [5] := by
  decide

/-- C6 (amended): the code performs no interval validation; with interval
0 it raises `ZeroDivisionError` while processing the first decoded frame,
so exactly one frame has been decoded at the failure (zero only for an
empty source), and with a negative interval no error is raised. -/
theorem c6_amended {P : Type} (v : List P) (f : P) (n : ℤ) (hn : n < 0) :
    extract_frames (f :: v) 0 = .crashed 1 ∧
      extract_frames ([] : List P) 0 = .ok [] ∧
      ∃ l, extract_frames (f :: v) n = .ok l :=
  ⟨rfl, rfl,
    ⟨sampleList n 0 (f :: v), extractFramesAux_eq_ok n (by omega) (f :: v) 0⟩⟩

/-- Witness for the amended C6 at interval -3 on a two-frame source. -/
theorem c6_amended_witness :
    extract_frames [(5 : ℕ), 6] 0 = .crashed 1 ∧
      extract_frames ([] : List ℕ) 0 = .ok [] ∧
      ∃ l, extract_frames [(5 : ℕ), 6] (-3) = .ok l :=
  c6_amended [6] 5 (-3) (by decide)

/-- When extraction succeeds on every slide, the assembler returns one
record per slide, pairing each slide with the stripped text. -/
theorem extract_text_ok {P E : Type} (image_to_string : P → Except E (List Char))
    (txt : P → List Char) :
    ∀ slides : List P, (∀ s ∈ slides, image_to_string s = Except.ok (txt s)) →
      extract_text_from_slides image_to_string slides =
        Except.ok (slides.map fun s => (s, pyStrip (txt s)))
  | [], _ => rfl
  | s :: rest, h => by
    rw [extract_text_from_slides, h s (List.mem_cons_self s rest),
      extract_text_ok image_to_string txt rest
        fun x hx => h x (List.mem_cons_of_mem s hx)]
    rfl

/-- A raise from the extraction capability propagates out of
`extract_text_from_slides` and aborts the whole call. -/
theorem extract_text_error {P E : Type} (image_to_string : P → Except E (List Char))
    (s : P) (e : E) (hfail : image_to_string s = Except.error e) :
    ∀ (xs ys : List P), (∀ x ∈ xs, ∃ t, image_to_string x = Except.ok t) →
      extract_text_from_slides image_to_string (xs ++ s :: ys) = Except.error e
  | [], ys, _ => by
    rw [List.nil_append, extract_text_from_slides, hfail]
  | x :: xs, ys, h => by
    obtain ⟨t, ht⟩ := h x (List.mem_cons_self x xs)
    rw [List.cons_append, extract_text_from_slides, ht,
      extract_text_error image_to_string s e hfail xs ys
        fun y hy => h y (List.mem_cons_of_mem x hy)]

/-- When every slide extracts successfully, the assembler returns as many
records as slides. -/
theorem extract_text_ok_length {P E : Type} (image_to_string : P → Except E (List Char)) :
    ∀ zs : List P, (∀ x ∈ zs, ∃ t, image_to_string x = Except.ok t) →
      ∃ l, extract_text_from_slides image_to_string zs = Except.ok l ∧
        l.length = zs.length
  | [], _ => ⟨[], rfl, rfl⟩
  | x :: xs, h => by
    obtain ⟨t, ht⟩ := h x (List.mem_cons_self x xs)
    obtain ⟨l, hl, hlen⟩ := extract_text_ok_length image_to_string xs
      fun y hy => h y (List.mem_cons_of_mem x hy)
    refine ⟨(x, pyStrip t) :: l, ?_, by simp [hlen]⟩
    rw [extract_text_from_slides, ht, hl]

/-- C4 fails on the code: `extract_text_from_slides` has no exception
handler, so a raise on the middle slide of three aborts the call with that
error instead of returning three records. -/
theorem c4_counterexample :
    extract_text_from_slides failingExtractor [0, 1, 2] = Except.error () ∧
      ¬ ∃ l, extract_text_from_slides failingExtractor [0, 1, 2] = Except.ok l ∧
          l.length = 3 := by
  constructor
  · rfl
  · rintro ⟨l, hl, -⟩
    rw [show extract_text_from_slides failingExtractor [0, 1, 2] =
      Except.error () from rfl] at hl
    exact Except.noConfusion hl

/-- C4 (amended): a per-slide extraction failure aborts the whole call:
the first raise propagates as the result and no records are returned; only
when extraction succeeds on every slide does the assembler return one
record per slide. -/
theorem c4_amended {P E : Type} (image_to_string : P → Except E (List Char))
    (xs ys : List P) (s : P) (e : E)
    (hok : ∀ x ∈ xs, ∃ t, image_to_string x = Except.ok t)
    (hfail : image_to_string s = Except.error e) :
    extract_text_from_slides image_to_string (xs ++ s :: ys) = Except.error e ∧
      ∀ zs : List P, (∀ x ∈ zs, ∃ t, image_to_string x = Except.ok t) →
        ∃ l, extract_text_from_slides image_to_string zs = Except.ok l ∧
          l.length = zs.length :=
  ⟨extract_text_error image_to_string s e hfail xs ys hok,
    fun zs hz => extract_text_ok_length image_to_string zs hz⟩

/-- Witness for the amended C4: slide 1 among three raises and the call
returns that error; on the two good slides alone two records come back. -/
theorem c4_amended_witness :
    extract_text_from_slides failingExtractor [0, 1, 2] = Except.error () ∧
      ∃ l, extract_text_from_slides failingExtractor [0, 2] = Except.ok l ∧
        l.length = 2 := by
  have h := c4_amended failingExtractor [0] [2] 1 ()
    (by
      intro x hx
      rw [List.mem_singleton] at hx
      subst hx
      exact ⟨['a'], rfl⟩)
    rfl
  refine ⟨h.1, h.2 [0, 2] ?_⟩
  intro x hx
  refine ⟨['a'], ?_⟩
  rcases List.mem_cons.1 hx with rfl | hx
  · rfl
  · rw [List.mem_singleton] at hx
    subst hx
    rfl

/-- C5 fails on the code: the assembler applies `str.strip` to the
extractor's output, so a text with surrounding blanks is recorded trimmed,
not forwarded unchanged. -/
theorem c5_counterexample :
    extract_text_from_slides paddedExtractor [0] = Except.ok [(0, ['a'])] ∧
      (['a'] : List Char) ≠ [' ', 'a', ' '] := by
  constructor
  · rfl
  · decide

/-- C5 (amended): for every slide the assembler records exactly
`str.strip` of the extractor's output — trimming of leading and trailing
whitespace is its only post-processing — and forwards the records in slide
order. -/
theorem c5_amended {P E : Type} (image_to_string : P → Except E (List Char))
    (txt : P → List Char) (hall : ∀ s, image_to_string s = Except.ok (txt s))
    (slides : List P) :
    extract_text_from_slides image_to_string slides =
      Except.ok (slides.map fun s => (s, pyStrip (txt s))) :=
  extract_text_ok image_to_string txt slides fun s _ => hall s

/-- Witness for the amended C5 on one slide with padded text. -/
theorem c5_amended_witness :
    extract_text_from_slides paddedExtractor [0] =
      Except.ok (([0] : List ℕ).map fun s => (s, pyStrip [' ', 'a', ' '])) :=
  c5_amended paddedExtractor (fun _ => [' ', 'a', ' ']) (fun _ => rfl) [0]
